import Mathlib

/-!
Shallow embedding of `src/visualizer.py`.

External commands are modelled by their outcome: a value of type
`Except String String` is the outcome of `subprocess.run(..., check=True)`
(`Except.error msg` = a raised `CalledProcessError` rendered as its message,
`Except.ok out` = captured standard output).  Python sets are modelled as
duplicate-free lists in insertion order; only membership and freedom from
duplicates are relied upon, since Python set iteration order is unspecified.
`str.splitlines` is modelled for "\n" line endings, the only ones the
modelled git commands produce.  Printing to standard output is modelled by
returning the list of printed messages alongside the value.
-/

namespace Visualizer

/-- Python exceptions the parsing code can raise past the `except` clause. -/
inductive PyExc
  | indexError
  deriving DecidableEq

def nlChar : Char := Char.ofNat 10

def quoteChar : Char := Char.ofNat 34

def aposChar : Char := Char.ofNat 39

def slashChar : Char := Char.ofNat 47

def bslashChar : Char := Char.ofNat 92

/-- Split a character list at every separator character (groups may be empty,
there is one more group than separators). -/
def splitOnP (p : Char → Bool) : List Char → List (List Char)
  | [] => [[]]
  | x :: xs =>
    match splitOnP p xs with
    | [] => [[]]
    | g :: gs => if p x then [] :: g :: gs else (x :: g) :: gs

/-- Python `str.splitlines()` for "\n"-separated text: split on newlines and
drop the final empty group produced by a trailing newline (or empty input). -/
def pySplitlines (s : String) : List String :=
  let groups := (splitOnP (fun c => c == nlChar) s.data).map String.mk
  if groups.getLast? = some ("") then groups.dropLast else groups

/-- Python `str.strip()`: remove leading and trailing whitespace. -/
def pyStrip (s : String) : String :=
  String.mk (((s.data.dropWhile Char.isWhitespace).reverse.dropWhile
    Char.isWhitespace).reverse)

/-- Python `str.split()` with no arguments: the maximal whitespace-free runs. -/
def pySplitWs (s : String) : List String :=
  ((splitOnP Char.isWhitespace s.data).filter (fun g => g ≠ [])).map String.mk

/-- The parsing loop of `get_git_commits` (visualizer.py lines 17-22).
Per line: `parts = line.strip().split()`; `parts[0]` raises `IndexError`
when `parts` is empty; `parts[1:] if len(parts) > 1 else []` is its tail. -/
def parseLogLines : List String → Except PyExc (List (String × List String))
  | [] => Except.ok []
  | line :: rest =>
    match pySplitWs (pyStrip line) with
    | [] => Except.error PyExc.indexError
    | commit_hash :: parent_hashes =>
      match parseLogLines rest with
      | Except.ok commits => Except.ok ((commit_hash, parent_hashes) :: commits)
      | Except.error e => Except.error e

/-- Function `get_git_commits` (visualizer.py lines 7-26) as a function of the outcome
of the `git log` invocation.  Result: (printed messages, returned commit list
or uncaught exception).  Only `CalledProcessError` is caught (lines 24-26). -/
def get_git_commits (cmd : Except String String) :
    List String × Except PyExc (List (String × List String)) :=
  match cmd with
  | Except.ok stdout => ([], parseLogLines (pySplitlines stdout))
  | Except.error e => ([("Ошибка при получении коммитов: " ++ e)], Except.ok [])

/-- Python `posixpath.dirname`: everything before the final slash; a non-empty head
that is not all slashes has its trailing slashes stripped. -/
def pyDirname (p : String) : String :=
  let cs := p.data
  let tailRun := (cs.reverse.takeWhile (fun c => c != slashChar)).length
  let head := cs.take (cs.length - tailRun)
  if !head.isEmpty && head.any (fun c => c != slashChar) then
    String.mk ((head.reverse.dropWhile (fun c => c == slashChar)).reverse)
  else
    String.mk head

/-- Python `set.add`, modelled on insertion-ordered duplicate-free lists. -/
def listInsert (l : List String) (x : String) : List String :=
  if x ∈ l then l else l ++ [x]

/-- The folder/file collection loop of `get_commit_diff` (lines 43-47):
add each file to `files`, and its non-empty dirname to `folders`. -/
def collectDiff : List String → List String × List String → List String × List String
  | [], acc => acc
  | file :: rest, (folders, files) =>
    let files2 := listInsert files file
    let folder := pyDirname file
    let folders2 := if folder ≠ ("") then listInsert folders folder else folders
    collectDiff rest (folders2, files2)

/-- Function `get_commit_diff` (visualizer.py lines 29-51) as a function of the commit
hash and the outcome of the `git diff-tree` invocation.  Result: (printed
messages, (list(folders), list(files))). -/
def get_commit_diff (commit_hash : String) (cmd : Except String String) :
    List String × (List String × List String) :=
  match cmd with
  | Except.ok stdout =>
    ([], collectDiff (pySplitlines (pyStrip stdout)) ([], []))
  | Except.error e =>
    ([("Ошибка при получении изменений для коммита " ++ commit_hash ++ ": " ++ e)],
      ([], []))

/-- The per-commit record stored in `commit_data` (lines 62-66). -/
structure CommitData where
  parents : List String
  folders : List String
  files : List String
  deriving DecidableEq

def mkCommitData (parents : List String) (fd : List String × List String) :
    CommitData :=
  ⟨parents, fd.1, fd.2⟩

/-- Python dict assignment `d[k] = v`: an existing key keeps its position and
gets the new value; a fresh key is appended at the end. -/
def dictInsert (d : List (String × CommitData)) (k : String) (v : CommitData) :
    List (String × CommitData) :=
  if d.any (fun e => e.1 == k) then
    d.map (fun e => if e.1 = k then (k, v) else e)
  else d ++ [(k, v)]

def buildStep (diff : String → List String × List String)
    (d : List (String × CommitData)) (e : String × List String) :
    List (String × CommitData) :=
  dictInsert d e.1 (mkCommitData e.2 (diff e.1))

/-- The first loop of `generate_mermaid_graph` (lines 60-66): build the
`commit_data` dict, one `get_commit_diff` call per input entry.  `diff` is
the oracle `fun h => (get_commit_diff h (outcome of the command for h)).2`. -/
def buildCommitData (commits : List (String × List String))
    (diff : String → List String × List String) : List (String × CommitData) :=
  commits.foldl (buildStep diff) []

/-- Python `sep.join(l)`. -/
def joinSep (sep : String) : List String → String
  | [] => ""
  | [x] => x
  | x :: y :: xs => x ++ sep ++ joinSep sep (y :: xs)

def expandChars (g : Char → List Char) : List Char → List Char
  | [] => []
  | c :: cs => g c ++ expandChars g cs

/-- Python `str.replace` for a single-character pattern. -/
def pyReplace1 (pat : Char) (rep : List Char) (s : String) : String :=
  String.mk (expandChars (fun c => if c = pat then rep else [c]) s.data)

/-- The `changed_items` list (lines 70-77): a folder block when there are
folders, then a file block when there are files. -/
def changedItems (d : CommitData) : List String :=
  (if d.folders ≠ [] then [("Папки:<br>" ++ joinSep ("<br>") d.folders)] else []) ++
  (if d.files ≠ [] then [("Файлы:<br>" ++ joinSep ("<br>") d.files)] else [])

/-- The `commit_text` value before escaping (line 78). -/
def commitText (d : CommitData) : String :=
  if changedItems d = [] then ("Нет изменений") else joinSep ("<br>") (changedItems d)

/-- Node-label building (lines 70-80): `commit_text` with the quote and the
apostrophe characters escaped (line 80), in that order. -/
def commitLabel (d : CommitData) : String :=
  pyReplace1 aposChar [bslashChar, aposChar]
    (pyReplace1 quoteChar [bslashChar, quoteChar] (commitText d))

/-- The node-declaration line emitted at line 82 (with its trailing newline). -/
def nodeLine (h : String) (d : CommitData) : String :=
  ("  ") ++ h ++ ("[\"") ++ h ++ ("<br>") ++ commitLabel d ++ ("\"]") ++ ("\n")

/-- The text `parent --> child` of an edge declaration. -/
def edgeCore (p c : String) : String := p ++ (" --> ") ++ c

/-- The edge line emitted at line 85 (with indentation and newline). -/
def edgeLine (p c : String) : String := ("  ") ++ edgeCore p c ++ ("\n")

def strJoin : List String → String
  | [] => ""
  | s :: rest => s ++ strJoin rest

/-- The text appended for one `commit_data` entry in the second loop
(lines 68-85): its node line, then one edge line per parent. -/
def entryText (e : String × CommitData) : String :=
  nodeLine e.1 e.2 ++ strJoin (e.2.parents.map (fun p => edgeLine p e.1))

/-- Function `generate_mermaid_graph` (visualizer.py lines 54-87), with the
`get_commit_diff` results supplied by the oracle `diff`. -/
def generate_mermaid_graph (commits : List (String × List String))
    (diff : String → List String × List String) : String :=
  ("graph TD\n") ++ strJoin ((buildCommitData commits diff).map entryText)

/-- The (parent, child) pairs whose edge lines the second loop emits, in
emission order (lines 84-85). -/
def edgesOf : List (String × CommitData) → List (String × String)
  | [] => []
  | e :: rest => e.2.parents.map (fun p => (p, e.1)) ++ edgesOf rest

def mermaidEdges (commits : List (String × List String))
    (diff : String → List String × List String) : List (String × String) :=
  edgesOf (buildCommitData commits diff)

/-- Outcome of the renderer invocation in `generate_png_from_mermaid`.
`otherError` covers exceptions other than `CalledProcessError` (for example
`FileNotFoundError` for a missing executable), which the `except` clause at
line 100 does not catch, while the `finally` block still runs. -/
inductive RenderOutcome
  | success
  | calledProcessError (msg : String)
  | otherError (msg : String)
  deriving DecidableEq

/-- Function `generate_png_from_mermaid` (visualizer.py lines 90-105).  The file
system is the list of existing file names; the function writes "temp.mmd",
runs the renderer, and in `finally` removes "temp.mmd" when it exists.
Result: (printed messages, final file system, uncaught exception). -/
def generate_png_from_mermaid (outcome : RenderOutcome) (fs : List String) :
    List String × List String × Option String :=
  let fs1 := listInsert fs ("temp.mmd")
  let logexc : List String × Option String :=
    match outcome with
    | RenderOutcome.success => ([], none)
    | RenderOutcome.calledProcessError e => ([("Ошибка при создании PNG: " ++ e)], none)
    | RenderOutcome.otherError e => ([], some e)
  let fs2 := if ("temp.mmd") ∈ fs1 then fs1.filter (fun f => f ≠ ("temp.mmd")) else fs1
  (logexc.1, fs2, logexc.2)

/-- Predicate `startsWithL s l`: `s` starts `l` (executable). -/
def startsWithL : List Char → List Char → Bool
  | [], _ => true
  | _ :: _, [] => false
  | c :: cs, d :: ds => c == d && startsWithL cs ds

/-- Predicate `containsRun s l`: `s` occurs as a contiguous run inside `l`
(executable substring test). -/
def containsRun : List Char → List Char → Bool
  | s, [] => startsWithL s []
  | s, d :: ds => startsWithL s (d :: ds) || containsRun s ds

/-! ### Basic lemmas about the string helpers -/

theorem strData_append (a b : String) : (a ++ b).data = a.data ++ b.data := by
  cases a; cases b; rfl

theorem startsWithL_iff (s : List Char) : ∀ l : List Char,
    startsWithL s l = true ↔ ∃ t, l = s ++ t := by
  induction s with
  | nil => intro l; simp [startsWithL]
  | cons c cs ih =>
    intro l
    cases l with
    | nil => simp [startsWithL]
    | cons d ds =>
      simp only [startsWithL, Bool.and_eq_true, beq_iff_eq, ih, List.cons_append,
        List.cons.injEq]
      constructor
      · rintro ⟨rfl, t, rfl⟩; exact ⟨t, rfl, rfl⟩
      · rintro ⟨t, rfl, rfl⟩; exact ⟨rfl, t, rfl⟩

theorem containsRun_iff (s : List Char) : ∀ l : List Char,
    containsRun s l = true ↔ ∃ x y, l = x ++ s ++ y := by
  intro l
  induction l with
  | nil =>
    simp only [containsRun, startsWithL_iff]
    constructor
    · rintro ⟨t, ht⟩
      exact ⟨[], t, by simpa using ht⟩
    · rintro ⟨x, y, h⟩
      rcases List.append_eq_nil.1 h.symm with ⟨h1, h2⟩
      rcases List.append_eq_nil.1 h1 with ⟨rfl, rfl⟩
      exact ⟨[], by simp⟩
  | cons d ds ih =>
    simp only [containsRun, Bool.or_eq_true, startsWithL_iff, ih]
    constructor
    · rintro (⟨t, ht⟩ | ⟨x, y, h⟩)
      · exact ⟨[], t, by simpa using ht⟩
      · exact ⟨d :: x, y, by simp [h]⟩
    · rintro ⟨x, y, h⟩
      cases x with
      | nil => exact Or.inl ⟨y, by simpa using h⟩
      | cons a xs =>
        simp only [List.cons_append, List.cons.injEq] at h
        exact Or.inr ⟨xs, y, h.2⟩

theorem containsRun_of_parts (s x y l : List Char) (h : l = x ++ s ++ y) :
    containsRun s l = true :=
  (containsRun_iff s l).2 ⟨x, y, h⟩

theorem containsRun_refl (s : List Char) : containsRun s s = true :=
  containsRun_of_parts s [] [] s (by simp)

theorem containsRun_append_left (s a b : List Char)
    (h : containsRun s b = true) : containsRun s (a ++ b) = true := by
  rcases (containsRun_iff s b).1 h with ⟨x, y, rfl⟩
  exact containsRun_of_parts s (a ++ x) y _ (by simp)

theorem containsRun_append_right (s a b : List Char)
    (h : containsRun s a = true) : containsRun s (a ++ b) = true := by
  rcases (containsRun_iff s a).1 h with ⟨x, y, rfl⟩
  exact containsRun_of_parts s x (y ++ b) _ (by simp)

theorem containsRun_trans (s m l : List Char) (h1 : containsRun s m = true)
    (h2 : containsRun m l = true) : containsRun s l = true := by
  rcases (containsRun_iff s m).1 h1 with ⟨u, v, rfl⟩
  rcases (containsRun_iff _ l).1 h2 with ⟨x, y, rfl⟩
  exact containsRun_of_parts s (x ++ u) (v ++ y) _ (by simp)

theorem expandChars_append (g : Char → List Char) (a b : List Char) :
    expandChars g (a ++ b) = expandChars g a ++ expandChars g b := by
  induction a with
  | nil => rfl
  | cons c cs ih => simp [expandChars, ih]

theorem expandChars_fixed (g : Char → List Char) (l : List Char)
    (h : ∀ c ∈ l, g c = [c]) : expandChars g l = l := by
  induction l with
  | nil => rfl
  | cons c cs ih =>
    simp only [expandChars, h c (by simp), ih (fun d hd => h d (by simp [hd])),
      List.singleton_append]

theorem containsRun_expandChars (g : Char → List Char) (s l : List Char)
    (h : containsRun s l = true) (hs : ∀ c ∈ s, g c = [c]) :
    containsRun s (expandChars g l) = true := by
  rcases (containsRun_iff s l).1 h with ⟨x, y, rfl⟩
  refine containsRun_of_parts s (expandChars g x) (expandChars g y) _ ?_
  rw [expandChars_append, expandChars_append, expandChars_fixed g s hs]

theorem strJoin_parts_of_mem (s : String) : ∀ l : List String, s ∈ l →
    ∃ x y, (strJoin l).data = x ++ s.data ++ y := by
  intro l
  induction l with
  | nil => intro h; cases h
  | cons a t ih =>
    intro h
    rcases List.mem_cons.1 h with rfl | hmem
    · exact ⟨[], (strJoin t).data, by simp [strJoin, strData_append]⟩
    · rcases ih hmem with ⟨x, y, hxy⟩
      exact ⟨a.data ++ x, y, by simp [strJoin, strData_append, hxy]⟩

theorem joinSep_parts_of_mem (sep s : String) : ∀ l : List String, s ∈ l →
    ∃ x y, (joinSep sep l).data = x ++ s.data ++ y := by
  intro l
  induction l with
  | nil => intro h; cases h
  | cons a t ih =>
    intro h
    cases t with
    | nil =>
      rcases List.mem_cons.1 h with rfl | hmem
      · exact ⟨[], [], by simp [joinSep]⟩
      · cases hmem
    | cons b u =>
      rcases List.mem_cons.1 h with rfl | hmem
      · exact ⟨[], (sep ++ joinSep sep (b :: u)).data,
          by simp [joinSep, strData_append]⟩
      · rcases ih hmem with ⟨x, y, hxy⟩
        refine ⟨(a ++ sep).data ++ x, y, ?_⟩
        show (a ++ sep ++ joinSep sep (b :: u)).data = _
        simp [strData_append, hxy]

/-! ### Lemmas about the set model -/

theorem mem_listInsert (l : List String) (x y : String) :
    y ∈ listInsert l x ↔ y ∈ l ∨ y = x := by
  unfold listInsert
  split
  · rename_i hx
    constructor
    · exact Or.inl
    · rintro (h | rfl)
      · exact h
      · exact hx
  · simp

theorem nodup_listInsert (l : List String) (x : String) (h : l.Nodup) :
    (listInsert l x).Nodup := by
  unfold listInsert
  split
  · exact h
  · rename_i hx
    simp [List.nodup_append, h, List.disjoint_singleton, hx]

/-- Invariant of the folder/file collection loop: both sequences are
duplicate-free and every folder is the non-empty dirname of some file. -/
def DiffInv (acc : List String × List String) : Prop :=
  acc.1.Nodup ∧ acc.2.Nodup ∧
    ∀ d ∈ acc.1, d ≠ ("") ∧ ∃ f ∈ acc.2, pyDirname f = d

theorem collectDiff_inv (files : List String) : ∀ acc, DiffInv acc →
    DiffInv (collectDiff files acc) := by
  induction files with
  | nil => intro acc h; exact h
  | cons file rest ih =>
    rintro ⟨folders, files0⟩ ⟨h1, h2, h3⟩
    show DiffInv (collectDiff rest _)
    apply ih
    refine ⟨?_, nodup_listInsert _ _ h2, ?_⟩
    · dsimp only
      split
      · exact nodup_listInsert _ _ h1
      · exact h1
    · intro d hd
      dsimp only at hd
      split at hd
      · rename_i hne
        rcases (mem_listInsert _ _ _).1 hd with hmem | rfl
        · rcases h3 d hmem with ⟨hd0, f, hf, hdir⟩
          exact ⟨hd0, f, (mem_listInsert _ _ _).2 (Or.inl hf), hdir⟩
        · exact ⟨hne, file, (mem_listInsert _ _ _).2 (Or.inr rfl), rfl⟩
      · rcases h3 d hd with ⟨hd0, f, hf, hdir⟩
        exact ⟨hd0, f, (mem_listInsert _ _ _).2 (Or.inl hf), hdir⟩

/-! ### Claims about `get_git_commits` and `get_commit_diff` -/

/-- C1: whenever the external command fails (a `CalledProcessError`),
`get_git_commits` and `get_commit_diff` catch it at the call site, print a
message, and return an empty result (`Except.ok []`, resp. two empty
sequences); no exception propagates. -/
theorem claim_C1 (e commit_hash : String) :
    get_git_commits (Except.error e) =
      ([("Ошибка при получении коммитов: " ++ e)], Except.ok []) ∧
    get_commit_diff commit_hash (Except.error e) =
      ([("Ошибка при получении изменений для коммита " ++ commit_hash ++ ": " ++ e)],
        ([], [])) :=
  ⟨rfl, rfl⟩

/-- C2, amended: on every log output text in which each line still has at
least one whitespace-separated token after stripping, `get_git_commits`
returns one pair per line in line order — first token as commit id, the
remaining tokens as parents; in particular the spec's example holds.  (As
stated over *every* text the claim fails, see the counterexample.) -/
theorem claim_C2 (s : String)
    (h : ∀ line ∈ pySplitlines s, pySplitWs (pyStrip line) ≠ []) :
    (get_git_commits (Except.ok s)).2 =
      Except.ok ((pySplitlines s).map (fun line =>
        ((pySplitWs (pyStrip line)).headD (""), (pySplitWs (pyStrip line)).tail))) ∧
    get_git_commits (Except.ok ("abc123 def456\ndef456\n")) =
      ([], Except.ok [(("abc123"), [("def456")]), (("def456"), [])]) := by
  constructor
  · show parseLogLines (pySplitlines s) = _
    generalize hl : pySplitlines s = lines at h
    clear hl
    induction lines with
    | nil => rfl
    | cons a rest ih =>
      have ha := h a (by simp)
      cases hsp : pySplitWs (pyStrip a) with
      | nil => exact absurd hsp ha
      | cons c cs =>
        unfold parseLogLines
        rw [hsp, ih (fun l hl => h l (by simp [hl]))]
        simp [hsp]
  · rfl

/-- C2 counterexample: on the log output " " (a single whitespace-only
line) `get_git_commits` does not return a commit list at all — the
uncaught `IndexError` escapes — so the claim fails for this output text. -/
theorem claim_C2_cex :
    pySplitlines (" ") = [(" ")] ∧
    ¬ ∃ l : List (String × List String),
        (get_git_commits (Except.ok (" "))).2 = Except.ok l := by
  refine ⟨rfl, ?_⟩
  rintro ⟨l, hl⟩
  have hres : (get_git_commits (Except.ok (" "))).2 = Except.error PyExc.indexError := rfl
  rw [hres] at hl
  exact Except.noConfusion hl

/-- C3: on the diff output of the spec's example, `get_commit_diff` returns
a directory sequence that is a permutation of [src, src/utils] and a file
sequence that is a permutation of the two file paths. -/
theorem claim_C3 :
    List.Perm
      (get_commit_diff ("abc123")
        (Except.ok ("src/main.py\nsrc/utils/helper.py\n"))).2.1
      [("src"), ("src/utils")] ∧
    List.Perm
      (get_commit_diff ("abc123")
        (Except.ok ("src/main.py\nsrc/utils/helper.py\n"))).2.2
      [("src/main.py"), ("src/utils/helper.py")] := by
  constructor <;> decide

/-- C8: for every diff-command outcome, the two sequences returned by
`get_commit_diff` are duplicate-free, and every directory entry is a
non-empty string equal to the dirname of some file entry. -/
theorem claim_C8 (commit_hash : String) (cmd : Except String String) :
    (get_commit_diff commit_hash cmd).2.1.Nodup ∧
    (get_commit_diff commit_hash cmd).2.2.Nodup ∧
    ∀ d ∈ (get_commit_diff commit_hash cmd).2.1,
      d ≠ ("") ∧ ∃ f ∈ (get_commit_diff commit_hash cmd).2.2, pyDirname f = d := by
  cases cmd with
  | ok stdout =>
    exact collectDiff_inv _ _ ⟨List.nodup_nil, List.nodup_nil, by simp⟩
  | error e =>
    exact ⟨List.nodup_nil, List.nodup_nil, by simp [get_commit_diff]⟩

/-- Witness for C8 at the ok-outcome "src/main.py\n": the directory entry
"src" is non-empty and is the dirname of a returned file. -/
theorem claim_C8_witness :
    ("src") ≠ ("") ∧
    ∃ f ∈ (get_commit_diff ("c") (Except.ok ("src/main.py\n"))).2.2,
      pyDirname f = ("src") :=
  (claim_C8 ("c") (Except.ok ("src/main.py\n"))).2.2 ("src") (by decide)

/-- Helper for C9: one bad line anywhere makes the whole parse raise. -/
theorem parseLogLines_error (lines : List String) (line : String)
    (h1 : line ∈ lines) (h2 : pySplitWs (pyStrip line) = []) :
    parseLogLines lines = Except.error PyExc.indexError := by
  induction lines with
  | nil => cases h1
  | cons a rest ih =>
    rcases List.mem_cons.1 h1 with rfl | hmem
    · unfold parseLogLines
      rw [h2]
    · unfold parseLogLines
      cases hsp : pySplitWs (pyStrip a) with
      | nil => rfl
      | cons c cs => rw [ih hmem]

/-- C9: on any successful log output containing a line that is empty after
stripping (no tokens), `get_git_commits` raises an uncaught `IndexError`
(`parts[0]` on an empty token list) instead of returning a commit list. -/
theorem claim_C9 (s line : String) (h1 : line ∈ pySplitlines s)
    (h2 : pySplitWs (pyStrip line) = []) :
    (get_git_commits (Except.ok s)).2 = Except.error PyExc.indexError :=
  parseLogLines_error _ _ h1 h2

/-- Witness for C9 at the output "abc123\n \nabc122\n". -/
theorem claim_C9_witness :
    (get_git_commits (Except.ok ("abc123\n \nabc122\n"))).2 =
      Except.error PyExc.indexError :=
  claim_C9 ("abc123\n \nabc122\n") (" ") (by decide) (by decide)

/-- Witness for C2 at the spec's example output. -/
theorem claim_C2_witness :
    (get_git_commits (Except.ok ("abc123 def456\ndef456\n"))).2 =
      Except.ok ((pySplitlines ("abc123 def456\ndef456\n")).map (fun line =>
        ((pySplitWs (pyStrip line)).headD (""), (pySplitWs (pyStrip line)).tail))) :=
  (claim_C2 ("abc123 def456\ndef456\n") (by decide)).1

/-- C6: whatever the renderer outcome and the initial file system, the
scratch file "temp.mmd" is gone when `generate_png_from_mermaid` returns. -/
theorem claim_C6 (outcome : RenderOutcome) (fs : List String) :
    ((generate_png_from_mermaid outcome fs).2.1.contains ("temp.mmd")) = false := by
  have h1 : ("temp.mmd") ∈ listInsert fs ("temp.mmd") :=
    (mem_listInsert _ _ _).2 (Or.inr rfl)
  cases outcome <;>
    simp [generate_png_from_mermaid, h1, List.mem_filter]

/-! ### Lemmas about the `commit_data` dict -/

theorem dictInsert_fresh (d : List (String × CommitData)) (k : String)
    (v : CommitData) (h : k ∉ d.map Prod.fst) :
    dictInsert d k v = d ++ [(k, v)] := by
  unfold dictInsert
  rw [if_neg]
  simp only [List.any_eq_true, beq_iff_eq, not_exists, not_and]
  intro e he heq
  exact h (heq ▸ List.mem_map_of_mem Prod.fst he)

theorem keys_dictInsert_mem (d : List (String × CommitData)) (k : String)
    (v : CommitData) (h : k ∈ d.map Prod.fst) :
    (dictInsert d k v).map Prod.fst = d.map Prod.fst := by
  unfold dictInsert
  rw [if_pos]
  · rw [List.map_map]
    apply List.map_congr_left
    intro e _
    by_cases hek : e.1 = k
    · simp [hek]
    · simp [hek]
  · rcases List.mem_map.1 h with ⟨e, he, heq⟩
    exact List.any_eq_true.2 ⟨e, he, by simp [heq]⟩

theorem mem_keys_dictInsert (d : List (String × CommitData)) (k : String)
    (v : CommitData) (c : String) :
    c ∈ (dictInsert d k v).map Prod.fst ↔ c ∈ d.map Prod.fst ∨ c = k := by
  by_cases hk : k ∈ d.map Prod.fst
  · rw [keys_dictInsert_mem d k v hk]
    constructor
    · exact Or.inl
    · rintro (h | rfl)
      · exact h
      · exact hk
  · rw [dictInsert_fresh d k v hk]
    simp

theorem nodup_keys_dictInsert (d : List (String × CommitData)) (k : String)
    (v : CommitData) (h : (d.map Prod.fst).Nodup) :
    ((dictInsert d k v).map Prod.fst).Nodup := by
  by_cases hk : k ∈ d.map Prod.fst
  · rw [keys_dictInsert_mem d k v hk]
    exact h
  · rw [dictInsert_fresh d k v hk]
    simp [List.nodup_append, h, hk]

theorem mem_dictInsert_cases (d : List (String × CommitData)) (k : String)
    (v : CommitData) (c : String) (dd : CommitData)
    (h : (c, dd) ∈ dictInsert d k v) :
    (c = k ∧ dd = v) ∨ (c ≠ k ∧ (c, dd) ∈ d) := by
  unfold dictInsert at h
  split at h
  · rcases List.mem_map.1 h with ⟨e, he, heq⟩
    by_cases hek : e.1 = k
    · rw [if_pos hek] at heq
      injection heq with h1 h2
      exact Or.inl ⟨h1.symm, h2.symm⟩
    · rw [if_neg hek] at heq
      subst heq
      exact Or.inr ⟨by simpa using hek, he⟩
  · rename_i hany
    rcases List.mem_append.1 h with hd | hk2
    · refine Or.inr ⟨?_, hd⟩
      rintro rfl
      exact hany (List.any_eq_true.2 ⟨(c, dd), hd, by simp⟩)
    · have heq := List.mem_singleton.1 hk2
      injection heq with h1 h2
      exact Or.inl ⟨h1, h2⟩

theorem foldl_buildStep_keys_nodup (diff : String → List String × List String)
    (commits : List (String × List String)) :
    ∀ d : List (String × CommitData), (d.map Prod.fst).Nodup →
      ((commits.foldl (buildStep diff) d).map Prod.fst).Nodup := by
  induction commits with
  | nil => intro d h; exact h
  | cons e rest ih =>
    intro d h
    exact ih _ (nodup_keys_dictInsert _ _ _ h)

theorem mem_keys_foldl_buildStep (diff : String → List String × List String)
    (commits : List (String × List String)) :
    ∀ (d : List (String × CommitData)) (c : String),
      c ∈ (commits.foldl (buildStep diff) d).map Prod.fst ↔
        c ∈ d.map Prod.fst ∨ c ∈ commits.map Prod.fst := by
  induction commits with
  | nil => intro d c; simp
  | cons e rest ih =>
    intro d c
    rw [List.foldl_cons, ih]
    simp only [buildStep]
    rw [mem_keys_dictInsert]
    simp [or_assoc]

theorem foldl_buildStep_eq_of_nodup (diff : String → List String × List String)
    (commits : List (String × List String)) :
    ∀ d : List (String × CommitData), (commits.map Prod.fst).Nodup →
      (∀ c ∈ commits.map Prod.fst, c ∉ d.map Prod.fst) →
      commits.foldl (buildStep diff) d =
        d ++ commits.map (fun e => (e.1, mkCommitData e.2 (diff e.1))) := by
  induction commits with
  | nil => intro d _ _; simp
  | cons e rest ih =>
    intro d hnd hdisj
    rw [List.foldl_cons]
    have hfresh : e.1 ∉ d.map Prod.fst := hdisj e.1 (by simp)
    have hstep : buildStep diff d e = d ++ [(e.1, mkCommitData e.2 (diff e.1))] :=
      dictInsert_fresh _ _ _ hfresh
    rw [hstep, ih _ ((List.nodup_cons.1 (by simpa using hnd)).2) ?hdisj]
    · simp
    case hdisj =>
      intro c hc
      simp only [List.map_append, List.mem_append, List.map_cons, List.map_nil]
      rintro (hcd | hce)
      · exact hdisj c (by simp [hc]) hcd
      · rcases List.mem_singleton.1 hce with rfl
        exact (List.nodup_cons.1 (by simpa using hnd)).1 hc

theorem buildCommitData_eq_of_nodup (commits : List (String × List String))
    (diff : String → List String × List String)
    (h : (commits.map Prod.fst).Nodup) :
    buildCommitData commits diff =
      commits.map (fun e => (e.1, mkCommitData e.2 (diff e.1))) := by
  unfold buildCommitData
  rw [foldl_buildStep_eq_of_nodup diff commits [] h (by simp)]
  simp

theorem foldl_buildStep_mem (diff : String → List String × List String)
    (commits : List (String × List String)) :
    ∀ d : List (String × CommitData), (d.map Prod.fst).Nodup →
      ∀ (c : String) (dd : CommitData),
      (c, dd) ∈ commits.foldl (buildStep diff) d →
      ((commits.filter (fun e => e.1 == c)) = [] ∧ (c, dd) ∈ d) ∨
      (∃ ps, (commits.filter (fun e => e.1 == c)).getLast? = some (c, ps) ∧
        dd = mkCommitData ps (diff c)) := by
  induction commits with
  | nil =>
    intro d _ c dd h
    exact Or.inl ⟨rfl, h⟩
  | cons e rest ih =>
    intro d hnd c dd h
    rw [List.foldl_cons] at h
    have hnd2 : ((dictInsert d e.1 (mkCommitData e.2 (diff e.1))).map Prod.fst).Nodup :=
      nodup_keys_dictInsert _ _ _ hnd
    rcases ih _ hnd2 c dd h with ⟨hfil, hmem⟩ | ⟨ps, hlast, hdd⟩
    · rcases mem_dictInsert_cases _ _ _ _ _ hmem with ⟨hck, hddv⟩ | ⟨hck, hmemd⟩
      · subst hck
        refine Or.inr ⟨e.2, ?_, hddv⟩
        rw [List.filter_cons, if_pos (by simp), hfil]
        simp [Prod.mk.eta]
      · have hcc : (e.1 == c) = false := by
          simp only [beq_eq_false_iff_ne]
          exact fun hh => hck hh.symm
        refine Or.inl ⟨?_, hmemd⟩
        rw [List.filter_cons, hcc, hfil]
        rfl
    · refine Or.inr ⟨ps, ?_, hdd⟩
      have hne : rest.filter (fun e2 => e2.1 == c) ≠ [] := by
        intro h0
        rw [h0] at hlast
        exact Option.noConfusion hlast
      rw [List.filter_cons]
      split
      · rw [show (e :: rest.filter (fun e2 => e2.1 == c)) =
            [e] ++ rest.filter (fun e2 => e2.1 == c) from rfl,
          List.getLast?_append_of_ne_nil _ hne]
        exact hlast
      · exact hlast

/-! ### Claims about `generate_mermaid_graph`'s dict and ordering -/

/-- C10: when the same commit id appears in several input entries, the
built `commit_data` table has exactly one entry per distinct id (keys are
duplicate-free and are exactly the input ids), and the entry of an id holds
the parent list of its *last* input occurrence; the output is the header
plus one block per table entry. -/
theorem claim_C10 (commits : List (String × List String))
    (diff : String → List String × List String) :
    ((buildCommitData commits diff).map Prod.fst).Nodup ∧
    (∀ c, c ∈ (buildCommitData commits diff).map Prod.fst ↔
      c ∈ commits.map Prod.fst) ∧
    (generate_mermaid_graph commits diff =
      ("graph TD\n") ++ strJoin ((buildCommitData commits diff).map entryText)) ∧
    ∀ (c : String) (dd : CommitData), (c, dd) ∈ buildCommitData commits diff →
      ∃ ps, (commits.filter (fun e => e.1 == c)).getLast? = some (c, ps) ∧
        dd = mkCommitData ps (diff c) := by
  refine ⟨foldl_buildStep_keys_nodup diff commits [] (by simp), ?_, rfl, ?_⟩
  · intro c
    rw [show buildCommitData commits diff = commits.foldl (buildStep diff) [] from rfl,
      mem_keys_foldl_buildStep]
    simp
  · intro c dd h
    rcases foldl_buildStep_mem diff commits [] (by simp) c dd h with ⟨_, h0⟩ | hres
    · cases h0
    · exact hres

/-- Witness for C10 at the duplicate-id input [("c", ["p"]), ("c", [])]:
the single table entry for "c" holds the last occurrence's (empty) parent
list. -/
theorem claim_C10_witness :
    ∃ ps, (([(("c"), [("p")]), (("c"), [])] :
        List (String × List String)).filter (fun e => e.1 == ("c"))).getLast? =
      some (("c"), ps) ∧
      mkCommitData [] (([], []) : List String × List String) =
        mkCommitData ps ([], []) :=
  (claim_C10 [(("c"), [("p")]), (("c"), [])] (fun _ => ([], []))).2.2.2 ("c")
    (mkCommitData [] ([], [])) (by decide)

/-- C7, amended: for every input list with pairwise-distinct commit ids,
the output is the header followed, in input order, by each commit's
node-declaration line immediately followed by that commit's edge lines.
(As stated over *every* input list the claim fails: with a repeated commit
id there is only one node line for several input commits, see the
counterexample.) -/
theorem claim_C7 (commits : List (String × List String))
    (diff : String → List String × List String)
    (h : (commits.map Prod.fst).Nodup) :
    generate_mermaid_graph commits diff =
      ("graph TD\n") ++ strJoin (commits.map (fun e =>
        nodeLine e.1 (mkCommitData e.2 (diff e.1)) ++
        strJoin (e.2.map (fun p => edgeLine p e.1)))) := by
  unfold generate_mermaid_graph
  rw [buildCommitData_eq_of_nodup commits diff h, List.map_map]
  rfl

/-- Witness for C7 at the spec's two-commit example. -/
theorem claim_C7_witness :
    generate_mermaid_graph [(("abc123"), [("def456")]), (("def456"), [])]
        (fun _ => ([("src")], [("src/main.py")])) =
      ("graph TD\n") ++ strJoin (([(("abc123"), [("def456")]), (("def456"), [])] :
          List (String × List String)).map (fun e =>
        nodeLine e.1 (mkCommitData e.2 ([("src")], [("src/main.py")])) ++
        strJoin (e.2.map (fun p => edgeLine p e.1)))) :=
  claim_C7 [(("abc123"), [("def456")]), (("def456"), [])]
    (fun _ => ([("src")], [("src/main.py")])) (by decide)

/-- C7 counterexample: on the input [("a", ["p"]), ("a", [])], which lists
the same commit id twice, the output is not the header followed by one
node-declaration block per input commit in input order — the dict collapses
the two occurrences into a single node line (with the last occurrence's
parents), so the claimed per-input-commit layout fails. -/
theorem claim_C7_cex :
    generate_mermaid_graph [(("a"), [("p")]), (("a"), [])] (fun _ => ([], [])) ≠
      ("graph TD\n") ++ strJoin (([(("a"), [("p")]), (("a"), [])] :
          List (String × List String)).map (fun e =>
        nodeLine e.1 (mkCommitData e.2 ([], [])) ++
        strJoin (e.2.map (fun p => edgeLine p e.1)))) := by
  decide

/-! ### Substring facts about the generated graph text -/

theorem containsRun_strJoin_of_mem (s : String) (l : List String) (h : s ∈ l) :
    containsRun s.data (strJoin l).data = true := by
  rcases strJoin_parts_of_mem s l h with ⟨x, y, hxy⟩
  exact containsRun_of_parts _ x y _ hxy

theorem containsRun_joinSep_of_mem (sep s : String) (l : List String) (h : s ∈ l) :
    containsRun s.data (joinSep sep l).data = true := by
  rcases joinSep_parts_of_mem sep s l h with ⟨x, y, hxy⟩
  exact containsRun_of_parts _ x y _ hxy

/-- Anything occurring in the block of a `commit_data` entry occurs in the
whole generated graph text. -/
theorem containsRun_graph_of_entry (commits : List (String × List String))
    (diff : String → List String × List String) (e : String × CommitData)
    (he : e ∈ buildCommitData commits diff) (s : String)
    (hs : containsRun s.data (entryText e).data = true) :
    containsRun s.data (generate_mermaid_graph commits diff).data = true := by
  unfold generate_mermaid_graph
  rw [strData_append]
  apply containsRun_append_left
  exact containsRun_trans _ _ _ hs
    (containsRun_strJoin_of_mem _ _ (List.mem_map_of_mem entryText he))

theorem edgeLine_in_entry (c : String) (d : CommitData) (p : String)
    (hp : p ∈ d.parents) :
    containsRun (edgeCore p c).data (entryText (c, d)).data = true := by
  unfold entryText
  rw [strData_append]
  apply containsRun_append_left
  refine containsRun_trans _ _ _ ?_
    (containsRun_strJoin_of_mem (edgeLine p c) _
      (List.mem_map_of_mem (fun q => edgeLine q c) hp))
  exact containsRun_of_parts _ (("  ") : String).data (("\n") : String).data _
    (by simp [edgeLine, strData_append, List.append_assoc])

theorem label_in_nodeLine (c : String) (d : CommitData) :
    containsRun (commitLabel d).data (nodeLine c d).data = true := by
  refine containsRun_of_parts _ ((("  ") ++ c ++ ("[\"") ++ c ++ ("<br>")).data)
    ((("\"]") ++ ("\n")).data) _ ?_
  simp [nodeLine, strData_append, List.append_assoc]

theorem nodeLine_in_entry (c : String) (d : CommitData) :
    containsRun (nodeLine c d).data (entryText (c, d)).data = true := by
  unfold entryText
  rw [strData_append]
  exact containsRun_append_right _ _ _ (containsRun_refl _)

/-- Python `str.replace` with a single-character pattern leaves every substring
that avoids the pattern character in place. -/
theorem escape_keeps_run (pat : Char) (rep : List Char) (s t : String)
    (hst : containsRun s.data t.data = true) (hs : ∀ ch ∈ s.data, ch ≠ pat) :
    containsRun s.data (pyReplace1 pat rep t).data = true := by
  unfold pyReplace1
  exact containsRun_expandChars _ _ _ hst (fun ch hc => if_neg (hs ch hc))

theorem containsRun_commitText (d : CommitData) (f : String) (hf : f ∈ d.files) :
    containsRun f.data (commitText d).data = true := by
  have hfe : d.files ≠ [] := List.ne_nil_of_mem hf
  have hitem : ("Файлы:<br>" ++ joinSep ("<br>") d.files) ∈ changedItems d := by
    unfold changedItems
    rw [if_pos hfe]
    exact List.mem_append_right _ (List.mem_singleton.2 rfl)
  have hne : changedItems d ≠ [] := List.ne_nil_of_mem hitem
  have h1 : containsRun f.data (("Файлы:<br>" ++ joinSep ("<br>") d.files)).data = true := by
    rw [strData_append]
    exact containsRun_append_left _ _ _ (containsRun_joinSep_of_mem _ _ _ hf)
  unfold commitText
  rw [if_neg hne]
  exact containsRun_trans _ _ _ h1 (containsRun_joinSep_of_mem _ _ _ hitem)

theorem containsRun_commitLabel (d : CommitData) (f : String) (hf : f ∈ d.files)
    (hq : ∀ ch ∈ f.data, ch ≠ quoteChar ∧ ch ≠ aposChar) :
    containsRun f.data (commitLabel d).data = true := by
  unfold commitLabel
  exact escape_keeps_run _ _ _ _
    (escape_keeps_run _ _ _ _ (containsRun_commitText d f hf)
      (fun ch hc => (hq ch hc).1))
    (fun ch hc => (hq ch hc).2)

/-! ### Edge-counting lemmas -/

theorem count_map_pair (ps : List String) (c0 p c : String) :
    (ps.map (fun q => (q, c0))).count (p, c) =
      if c0 = c then ps.count p else 0 := by
  induction ps with
  | nil => simp
  | cons q rest ih =>
    simp only [List.map_cons, List.count_cons, ih]
    by_cases h1 : c0 = c <;> by_cases h2 : q = p <;>
      simp [h1, h2, Prod.ext_iff]

theorem count_edgesOf_not_mem (entries : List (String × CommitData)) (p c : String)
    (h : c ∉ entries.map Prod.fst) :
    (edgesOf entries).count (p, c) = 0 := by
  induction entries with
  | nil => rfl
  | cons e rest ih =>
    simp only [edgesOf, List.count_append]
    rw [count_map_pair, if_neg (fun hh => h (by simp [hh])),
      ih (fun hh => h (by simp [hh]))]

theorem count_edges_nodup (diff : String → List String × List String)
    (commits : List (String × List String)) (c p : String) (ps : List String)
    (hnd : (commits.map Prod.fst).Nodup) (hmem : (c, ps) ∈ commits) :
    (edgesOf (commits.map (fun e =>
      (e.1, mkCommitData e.2 (diff e.1))))).count (p, c) = ps.count p := by
  induction commits with
  | nil => cases hmem
  | cons e rest ih =>
    have hnd2 : (rest.map Prod.fst).Nodup := (List.nodup_cons.1 (by simpa using hnd)).2
    have hhd : e.1 ∉ rest.map Prod.fst := (List.nodup_cons.1 (by simpa using hnd)).1
    simp only [List.map_cons, edgesOf, List.count_append]
    have hpar : (mkCommitData e.2 (diff e.1)).parents = e.2 := rfl
    rw [hpar]
    rcases List.mem_cons.1 hmem with heq | hmem2
    · have h1 : e.1 = c := by rw [← heq]
      have h2 : e.2 = ps := by rw [← heq]
      rw [count_map_pair, if_pos h1, h2, count_edgesOf_not_mem, Nat.add_zero]
      rw [List.map_map]
      simpa [Function.comp, ← h1] using hhd
    · have hc : c ∈ rest.map Prod.fst := by
        simpa using List.mem_map_of_mem Prod.fst hmem2
      have hne : e.1 ≠ c := fun hh => hhd (hh ▸ hc)
      rw [count_map_pair, if_neg hne, ih hnd2 hmem2, Nat.zero_add]

/-! ### Claims C4 and C5 -/

/-- C4, amended: for every input list with pairwise-distinct commit ids,
the emitted edge pairs contain (p, c) exactly as many times as p occurs in
the parent list of the entry with id c (repeated edges within one parent
list are not deduplicated), and each such edge's text "p --> c" occurs in
the output.  (Over inputs with repeated commit ids the claim fails, see
the counterexample.) -/
theorem claim_C4 (commits : List (String × List String))
    (diff : String → List String × List String) (c p : String)
    (ps : List String) (hnd : (commits.map Prod.fst).Nodup)
    (hmem : (c, ps) ∈ commits) :
    (mermaidEdges commits diff).count (p, c) = ps.count p ∧
    (p ∈ ps → containsRun (edgeCore p c).data
      (generate_mermaid_graph commits diff).data = true) := by
  constructor
  · unfold mermaidEdges
    rw [buildCommitData_eq_of_nodup commits diff hnd]
    exact count_edges_nodup diff commits c p ps hnd hmem
  · intro hp
    apply containsRun_graph_of_entry commits diff (c, mkCommitData ps (diff c))
    · rw [buildCommitData_eq_of_nodup commits diff hnd]
      exact List.mem_map_of_mem _ hmem
    · exact edgeLine_in_entry c _ p hp

/-- C4 counterexample: with the same commit id "c" listed twice, the parent
"p" of the first occurrence yields no edge at all (the dict overwrite keeps
only the last occurrence's parents), so the output does not contain one
edge line per occurrence of p in the parent list of an input entry. -/
theorem claim_C4_cex :
    ((("c"), [("p")]) ∈ [(("c"), [("p")]), (("c"), [])] ∧
      ([("p")] : List String).count ("p") = 1) ∧
    mermaidEdges [(("c"), [("p")]), (("c"), [])] (fun _ => ([], [])) = [] ∧
    containsRun (edgeCore ("p") ("c")).data
      (generate_mermaid_graph [(("c"), [("p")]), (("c"), [])]
        (fun _ => ([], []))).data = false := by
  refine ⟨⟨by decide, by decide⟩, by decide, by decide⟩

/-- Witness for C4 at the spec's example: the edge def456 --> abc123 is
emitted exactly once and its text occurs in the output. -/
theorem claim_C4_witness :
    (mermaidEdges [(("abc123"), [("def456")]), (("def456"), [])]
      (fun _ => ([], []))).count ((("def456"), ("abc123"))) = 1 ∧
    containsRun (edgeCore ("def456") ("abc123")).data
      (generate_mermaid_graph [(("abc123"), [("def456")]), (("def456"), [])]
        (fun _ => ([], []))).data = true := by
  have h := claim_C4 [(("abc123"), [("def456")]), (("def456"), [])]
    (fun _ => ([], [])) ("abc123") ("def456") [("def456")] (by decide) (by decide)
  exact ⟨h.1, h.2 (by decide)⟩

/-- C5, amended: for every input commit list, every changed file path
reported by the diff for one of its commits that contains neither a quote
nor an apostrophe character occurs verbatim in that commit's node line
(the node line of every `commit_data` entry keyed by that commit, whose
label depends only on the diff of the id), hence in the output.  (For
paths containing a quote the claim fails because of the escaping at
line 80, see the counterexample.) -/
theorem claim_C5 (commits : List (String × List String))
    (diff : String → List String × List String) (c : String)
    (ps : List String) (f : String)
    (hc : (c, ps) ∈ commits) (hf : f ∈ (diff c).2)
    (hq : ∀ ch ∈ f.data, ch ≠ quoteChar ∧ ch ≠ aposChar) :
    (∀ dd : CommitData, (c, dd) ∈ buildCommitData commits diff →
      containsRun f.data (nodeLine c dd).data = true) ∧
    containsRun f.data (generate_mermaid_graph commits diff).data = true := by
  have hnode : ∀ dd : CommitData, (c, dd) ∈ buildCommitData commits diff →
      containsRun f.data (nodeLine c dd).data = true := by
    intro dd hdd
    rcases foldl_buildStep_mem diff commits [] (by simp) c dd hdd with
      ⟨_, h0⟩ | ⟨ps2, _, hdd2⟩
    · cases h0
    · subst hdd2
      exact containsRun_trans _ _ _ (containsRun_commitLabel _ f hf hq)
        (label_in_nodeLine c _)
  refine ⟨hnode, ?_⟩
  have hkey : c ∈ (buildCommitData commits diff).map Prod.fst := by
    rw [show buildCommitData commits diff = commits.foldl (buildStep diff) [] from rfl,
      mem_keys_foldl_buildStep]
    exact Or.inr (by simpa using List.mem_map_of_mem Prod.fst hc)
  rcases List.mem_map.1 hkey with ⟨e, he, hefst⟩
  have he2 : (c, e.2) ∈ buildCommitData commits diff := by
    rw [← hefst]
    simpa [Prod.mk.eta] using he
  apply containsRun_graph_of_entry commits diff (c, e.2) he2
  exact containsRun_trans _ _ _ (hnode e.2 he2) (nodeLine_in_entry c _)

/-- C5 counterexample: the changed file path a"b.py (which contains a
quote) does not occur verbatim anywhere in the output, because line 80
escapes the quote inside the node label. -/
theorem claim_C5_cex :
    ("a\"b.py") ∈ ((fun _ => (([] : List String), [("a\"b.py")])) ("c1")).2 ∧
    containsRun ("a\"b.py").data
      (generate_mermaid_graph [(("c1"), [])]
        (fun _ => ([], [("a\"b.py")]))).data = false := by
  exact ⟨by decide, by decide⟩

/-- Witness for C5: the quote-free path src/main.py occurs verbatim in the
output for a one-commit input. -/
theorem claim_C5_witness :
    containsRun ("src/main.py").data
      (generate_mermaid_graph [(("c1"), [])]
        (fun _ => ([], [("src/main.py")]))).data = true :=
  (claim_C5 [(("c1"), [])] (fun _ => ([], [("src/main.py")])) ("c1") [] ("src/main.py")
    (by decide) (by decide) (by decide)).2

end Visualizer
